import Mathlib

/-!
Verification of the inheritance-resolution engine of the EdgeDB schema
system (`edb/schema/inheriting.py`, `edb/schema/referencing.py`,
`edb/schema/objtypes.py`) against its natural-language specification.

The Python code is shallowly embedded: base lists become `List String`
of base names (the data model guarantees bases are unique by name within
a sequence), schema objects become natural-number identities, reference
collections become association lists, and exceptions become explicit
error results.
-/

set_option autoImplicit false

namespace EdgeDB

/-- Insertion anchor for a group of added bases, as produced by
`delta_bases` and consumed by `RebaseInheritingObject.apply`:
`FIRST`, `LAST`, or `('BEFORE', ref)` (inheriting.py lines 54, 73,
248–257). -/
inductive Anchor where
  | first
  | last
  | before (ref : String)
deriving DecidableEq, Repr

/-- The walk over `new_bases` inside `delta_bases` (inheriting.py lines
47–64).  The Python loop keeps an index `j` into `common_bases`; here
the suffix `common_bases[j:]` is passed structurally as the first
argument.  The third argument is the `added_base_refs` buffer, the
fourth the `added_set`.  Returns the accumulated groups together with
the leftover buffer and the final `added_set`.  The case of an empty
common suffix is unreachable from `delta_bases` (the Python code checks
`if common_bases:` before the loop and breaks as soon as
`j >= len(common_bases)`). -/
def dbWalk : List String → List String → List String → List String →
    List (List String × Anchor) × List String × List String
  | _, [], buf, aset => ([], buf, aset)
  | [], _ :: _, buf, aset => ([], buf, aset)
  | c :: cs, b :: rest, buf, aset =>
    if c = b then
      -- found a common base: flush the accumulated buffer as a group
      -- anchored BEFORE this common base, then advance `j`
      let gs := if buf = [] then [] else [(buf, Anchor.before b)]
      match cs with
      | [] => (gs, [], aset)          -- `j >= len(common_bases)`: break
      | _ :: _ =>
        let r := dbWalk cs rest [] aset
        (gs ++ r.1, r.2.1, r.2.2)
    else
      dbWalk (c :: cs) rest (buf ++ [b]) (aset ++ [b])

/-- `dropped = frozenset(old_bases) - frozenset(new_bases)`
(inheriting.py line 36), as a list standing for the set: only
membership in it is ever used. -/
def db_dropped (old new : List String) : List String :=
  old.filter (fun b => decide (b ∉ new))

/-- `common_bases = [b for b in old_bases if b not in dropped]`
(inheriting.py line 38). -/
def db_common (old new : List String) : List String :=
  old.filter (fun b => decide (b ∉ db_dropped old new))

/-- The walk result of `delta_bases`: the Python loop runs only when
`common_bases` is non-empty (inheriting.py line 47). -/
def db_walked (old new : List String) :
    List (List String × Anchor) × List String × List String :=
  if db_common old new = [] then ([], [], [])
  else dbWalk (db_common old new) new [] []

/-- `tail_bases = added_base_refs + [b for b in new_bases if b not in
added_set and b not in common_bases]` (inheriting.py lines 67–70). -/
def db_tail (old new : List String) : List String :=
  (db_walked old new).2.1 ++
    new.filter (fun b =>
      decide (b ∉ (db_walked old new).2.2) && decide (b ∉ db_common old new))

/-- The `added_bases` component of `delta_bases` (inheriting.py lines
40–73). -/
def db_groups (old new : List String) : List (List String × Anchor) :=
  if db_tail old new = [] then (db_walked old new).1
  else (db_walked old new).1 ++ [(db_tail old new, Anchor.last)]

/-- `delta_bases(old_bases, new_bases)` (inheriting.py lines 35–75), on
base names.  Groups carry the added names in order together with their
anchor. -/
def delta_bases (old new : List String) :
    List String × List (List String × Anchor) :=
  (db_dropped old new, db_groups old new)

example :
    delta_bases ["A", "B", "C"] ["A", "D", "B", "C"] =
      ([], [(["D"], Anchor.before "B")]) := by decide

example :
    delta_bases ["A", "B"] ["B", "A"] =
      ([], [(["B"], Anchor.before "A")]) := by decide

example :
    delta_bases ["A", "B"] ["C", "D"] =
      (["A", "B"], [(["C", "D"], Anchor.last)]) := by decide

theorem mem_db_dropped {old new : List String} {x : String} :
    x ∈ db_dropped old new ↔ x ∈ old ∧ x ∉ new := by
  simp [db_dropped]

theorem mem_db_common {old new : List String} {x : String} :
    x ∈ db_common old new ↔ x ∈ old ∧ x ∈ new := by
  simp only [db_common, List.mem_filter, decide_eq_true_eq, mem_db_dropped]
  constructor
  · rintro ⟨hx, hnd⟩
    refine ⟨hx, ?_⟩
    by_contra hn
    exact hnd ⟨hx, hn⟩
  · rintro ⟨hx, hn⟩
    exact ⟨hx, fun h => h.2 hn⟩

/-- Every name inside a group emitted by the `delta_bases` walk comes
from the initial buffer or from `new_bases`. -/
theorem dbWalk_mem_group (new : List String) : ∀ (cs buf aset : List String)
    (g : List String × Anchor), g ∈ (dbWalk cs new buf aset).1 →
    ∀ x ∈ g.1, x ∈ buf ∨ x ∈ new := by
  induction new with
  | nil =>
    intro cs buf aset g hg
    cases cs <;> simp [dbWalk] at hg
  | cons b rest ih =>
    intro cs buf aset g hg x hx
    match cs with
    | [] => simp [dbWalk] at hg
    | c :: cs' =>
      by_cases hcb : c = b
      · match cs' with
        | [] =>
          simp only [dbWalk, if_pos hcb] at hg
          by_cases hbuf : buf = []
          · simp [hbuf] at hg
          · simp only [if_neg hbuf, List.mem_singleton] at hg
            subst hg
            exact Or.inl hx
        | c' :: cs'' =>
          simp only [dbWalk, if_pos hcb, List.mem_append] at hg
          rcases hg with hg | hg
          · by_cases hbuf : buf = []
            · simp [hbuf] at hg
            · simp only [if_neg hbuf, List.mem_singleton] at hg
              subst hg
              exact Or.inl hx
          · rcases ih (c' :: cs'') [] aset g hg x hx with h | h
            · simp at h
            · exact Or.inr (List.mem_cons_of_mem _ h)
      · simp only [dbWalk, if_neg hcb] at hg
        rcases ih (c :: cs') (buf ++ [b]) (aset ++ [b]) g hg x hx with h | h
        · rcases List.mem_append.mp h with h | h
          · exact Or.inl h
          · simp only [List.mem_singleton] at h
            subst h
            exact Or.inr (List.mem_cons_self _ _)
        · exact Or.inr (List.mem_cons_of_mem _ h)

/-- Every name in the leftover buffer of the `delta_bases` walk comes
from the initial buffer or from `new_bases`. -/
theorem dbWalk_mem_buf (new : List String) : ∀ (cs buf aset : List String)
    (x : String), x ∈ (dbWalk cs new buf aset).2.1 → x ∈ buf ∨ x ∈ new := by
  induction new with
  | nil =>
    intro cs buf aset x hx
    cases cs <;> (simp only [dbWalk] at hx; exact Or.inl hx)
  | cons b rest ih =>
    intro cs buf aset x hx
    match cs with
    | [] =>
      simp only [dbWalk] at hx
      exact Or.inl hx
    | c :: cs' =>
      by_cases hcb : c = b
      · match cs' with
        | [] =>
          simp only [dbWalk, if_pos hcb] at hx
          simp at hx
        | c' :: cs'' =>
          simp only [dbWalk, if_pos hcb] at hx
          rcases ih (c' :: cs'') [] aset x hx with h | h
          · simp at h
          · exact Or.inr (List.mem_cons_of_mem _ h)
      · simp only [dbWalk, if_neg hcb] at hx
        rcases ih (c :: cs') (buf ++ [b]) (aset ++ [b]) x hx with h | h
        · rcases List.mem_append.mp h with h | h
          · exact Or.inl h
          · simp only [List.mem_singleton] at h
            subst h
            exact Or.inr (List.mem_cons_self _ _)
        · exact Or.inr (List.mem_cons_of_mem _ h)

/-- Every group emitted by the `delta_bases` walk is anchored `BEFORE`
a name taken from the common suffix, which also occurs in `new`. -/
theorem dbWalk_anchor (new : List String) : ∀ (cs buf aset : List String)
    (g : List String × Anchor), g ∈ (dbWalk cs new buf aset).1 →
    ∃ c, g.2 = Anchor.before c ∧ c ∈ cs ∧ c ∈ new := by
  induction new with
  | nil =>
    intro cs buf aset g hg
    cases cs <;> simp [dbWalk] at hg
  | cons b rest ih =>
    intro cs buf aset g hg
    match cs with
    | [] => simp [dbWalk] at hg
    | c :: cs' =>
      by_cases hcb : c = b
      · match cs' with
        | [] =>
          simp only [dbWalk, if_pos hcb] at hg
          by_cases hbuf : buf = []
          · simp [hbuf] at hg
          · simp only [if_neg hbuf, List.mem_singleton] at hg
            subst hg
            exact ⟨b, rfl, hcb ▸ List.mem_cons_self _ _, List.mem_cons_self _ _⟩
        | c' :: cs'' =>
          simp only [dbWalk, if_pos hcb, List.mem_append] at hg
          rcases hg with hg | hg
          · by_cases hbuf : buf = []
            · simp [hbuf] at hg
            · simp only [if_neg hbuf, List.mem_singleton] at hg
              subst hg
              exact ⟨b, rfl, hcb ▸ List.mem_cons_self _ _, List.mem_cons_self _ _⟩
          · obtain ⟨c₀, hgc, hc₀, hc₀new⟩ := ih (c' :: cs'') [] aset g hg
            exact ⟨c₀, hgc, List.mem_cons_of_mem _ hc₀,
              List.mem_cons_of_mem _ hc₀new⟩
      · simp only [dbWalk, if_neg hcb] at hg
        obtain ⟨c₀, hgc, hc₀, hc₀new⟩ :=
          ih (c :: cs') (buf ++ [b]) (aset ++ [b]) g hg
        exact ⟨c₀, hgc, hc₀, List.mem_cons_of_mem _ hc₀new⟩

/-- Every group in the walk part of `delta_bases` output obeys
`dbWalk_mem_group` with an empty initial buffer. -/
theorem db_walked_mem_group (old new : List String)
    (g : List String × Anchor) (hg : g ∈ (db_walked old new).1)
    (x : String) (hx : x ∈ g.1) : x ∈ new := by
  unfold db_walked at hg
  split at hg
  · simp at hg
  · rcases dbWalk_mem_group new (db_common old new) [] [] g hg x hx with h | h
    · simp at h
    · exact h

/-- Every name in `db_tail` occurs in `new`. -/
theorem db_tail_mem_new (old new : List String)
    (x : String) (hx : x ∈ db_tail old new) : x ∈ new := by
  unfold db_tail at hx
  rcases List.mem_append.mp hx with h | h
  · unfold db_walked at h
    split at h
    · simp at h
    · rcases dbWalk_mem_buf new (db_common old new) [] [] x h with h' | h'
      · simp at h'
      · exact h'
  · exact (List.mem_filter.mp h).1

/-- Every name inside any group returned by `delta_bases` occurs in
`new`. -/
theorem delta_bases_group_mem_new (old new : List String)
    (g : List String × Anchor) (hg : g ∈ (delta_bases old new).2)
    (x : String) (hx : x ∈ g.1) : x ∈ new := by
  simp only [delta_bases, db_groups] at hg
  split at hg
  · exact db_walked_mem_group old new g hg x hx
  · rcases List.mem_append.mp hg with h | h
    · exact db_walked_mem_group old new g h x hx
    · simp only [List.mem_singleton] at h
      subst h
      exact db_tail_mem_new old new x hx

/-- If no base of `old` survives into `new`, `common_bases` is empty. -/
theorem db_common_eq_nil_of_disjoint (old new : List String)
    (h : ∀ b ∈ old, b ∉ new) : db_common old new = [] := by
  rw [db_common, List.filter_eq_nil_iff]
  intro b hb
  simp only [decide_eq_true_eq, Decidable.not_not]
  exact mem_db_dropped.mpr ⟨hb, h b hb⟩

/-- C7: `delta_bases(old=[A,B,C], new=[A,D,B,C])` returns `removed=[]`
and the single group `([D], BEFORE B)`; and for every pair of inputs,
no base name appears both in the returned `removed` set and inside any
returned added group. -/
theorem claim_C7 :
    delta_bases ["A", "B", "C"] ["A", "D", "B", "C"] =
      ([], [(["D"], Anchor.before "B")]) ∧
    ∀ (old new : List String) (n : String), n ∈ (delta_bases old new).1 →
      ∀ g ∈ (delta_bases old new).2, n ∉ g.1 := by
  refine ⟨by decide, ?_⟩
  intro old new n hn g hg hmem
  simp only [delta_bases] at hn
  exact (mem_db_dropped.mp hn).2 (delta_bases_group_mem_new old new g hg n hmem)

theorem claim_C7_witness :
    ("A" ∈ (delta_bases ["A", "B"] ["C"]).1 ∧
      (["C"], Anchor.last) ∈ (delta_bases ["A", "B"] ["C"]).2) ∧
    "A" ∉ ["C"] :=
  ⟨by decide,
   claim_C7.2 ["A", "B"] ["C"] "A" (by decide) (["C"], Anchor.last) (by decide)⟩

/-- C9: `delta_bases` never emits a group anchored `FIRST`: every group
is anchored `BEFORE` a base common to `old` and `new`, or `LAST`; and
when `old` and `new` share no base, the added groups are exactly one
group holding all of `new` anchored `LAST` (none when `new` is empty). -/
theorem claim_C9 :
    (∀ (old new : List String) (g : List String × Anchor),
      g ∈ (delta_bases old new).2 →
        g.2 ≠ Anchor.first ∧
        (g.2 = Anchor.last ∨
          ∃ c, g.2 = Anchor.before c ∧ c ∈ old ∧ c ∈ new)) ∧
    (∀ old new : List String, (∀ b ∈ old, b ∉ new) →
      (delta_bases old new).2 =
        if new = [] then [] else [(new, Anchor.last)]) := by
  constructor
  · intro old new g hg
    simp only [delta_bases, db_groups] at hg
    have walked : g ∈ (db_walked old new).1 →
        g.2 ≠ Anchor.first ∧ (g.2 = Anchor.last ∨
          ∃ c, g.2 = Anchor.before c ∧ c ∈ old ∧ c ∈ new) := by
      intro h
      rw [db_walked] at h
      split at h
      · simp at h
      · obtain ⟨c, hgc, hc, -⟩ :=
          dbWalk_anchor new (db_common old new) [] [] g h
        obtain ⟨hco, hcn⟩ := mem_db_common.mp hc
        exact ⟨by simp [hgc], Or.inr ⟨c, hgc, hco, hcn⟩⟩
    split at hg
    · exact walked hg
    · rcases List.mem_append.mp hg with h | h
      · exact walked h
      · simp only [List.mem_singleton] at h
        subst h
        exact ⟨by simp, Or.inl rfl⟩
  · intro old new h
    have hc := db_common_eq_nil_of_disjoint old new h
    have hw : db_walked old new = ([], [], []) := by
      rw [db_walked, if_pos hc]
    have ht : db_tail old new = new := by
      rw [db_tail, hw, hc]
      simp
    simp only [delta_bases, db_groups, ht, hw]
    split <;> simp_all

theorem claim_C9_witness :
    (∀ b ∈ ["A"], b ∉ ["B"]) ∧
    (delta_bases ["A"] ["B"]).2 = [(["B"], Anchor.last)] :=
  ⟨by decide, by simpa using claim_C9.2 ["A"] ["B"] (by decide)⟩

/-! ### The base-list reconstruction of `RebaseInheritingObject.apply`
(inheriting.py lines 230–269) -/

/-- The base-removal loop of `RebaseInheritingObject.apply`
(inheriting.py lines 240–244):

    for b in bases:
        if b.get_name(schema) in removed_bases:
            bases.remove(b)
        else:
            existing_bases.add(b.get_name(schema))

CPython iterates with an internal index over the list it mutates in
place: after `bases.remove(b)` the element that directly followed `b`
shifts into `b`'s position and is never examined — it stays in the
list and is not recorded in `existing_bases`.  The embedding carries
the already-processed elements in `acc` (base lists are unique by
name, so `list.remove(b)` deletes exactly the element at the current
index).  Returns the final list together with `existing_bases`. -/
def removeLoop (removed : List String) :
    List String → List String → List String → List String × List String
  | acc, existing, [] => (acc, existing)
  | acc, existing, b :: rest =>
    if b ∈ removed then
      match rest with
      | [] => (acc, existing)
      | b' :: rest' => removeLoop removed (acc ++ [b']) existing rest'
    else
      removeLoop removed (acc ++ [b]) (existing ++ [b]) rest

/-- `index = {b.get_name(schema): i for i, b in enumerate(bases)}`
(inheriting.py lines 246 and 262): for duplicate names the later
entry wins, hence the recursion consults the tail first. -/
def dictIndex : List String → String → Option Nat
  | [], _ => none
  | b :: rest, n =>
    match dictIndex rest n with
    | some i => some (i + 1)
    | none => if b = n then some 0 else none

/-- Anchor resolution in `RebaseInheritingObject.apply` (inheriting.py
lines 248–257): `LAST` (or no position) maps to the end of the list,
`FIRST` to 0, `BEFORE ref` to `index[ref]` — a missing key raises
`KeyError`, modelled as `none`. -/
def anchorIdx (bases : List String) : Anchor → Option Nat
  | Anchor.last => some bases.length
  | Anchor.first => some 0
  | Anchor.before r => dictIndex bases r

/-- Splice one added group at its anchor (inheriting.py lines
248–261): `bases[idx:idx] = [... for b in new_bases if b.get_name not
in existing_bases]`. -/
def spliceGroup (existing bases : List String)
    (g : List String × Anchor) : Option (List String) :=
  match anchorIdx bases g.2 with
  | none => none
  | some idx =>
    some (bases.take idx ++ g.1.filter (fun b => decide (b ∉ existing)) ++
      bases.drop idx)

/-- The loop over `self.added_bases` (inheriting.py lines 248–262);
the index map is rebuilt from the current list after every splice. -/
def spliceAll (existing : List String) :
    List String → List (List String × Anchor) → Option (List String)
  | bases, [] => some bases
  | bases, g :: gs =>
    match spliceGroup existing bases g with
    | none => none
    | some bases' => spliceAll existing bases' gs

/-- The base-list reconstruction before the default-base fallback
(inheriting.py lines 230–262): normalize a base list equal to
`[default_base]` to the empty list, run the removal loop, then splice
every added group. -/
def rebase_core (current : List String) (dflt : Option String)
    (removed : List String) (added : List (List String × Anchor)) :
    Option (List String) :=
  let bases0 := match dflt with
    | some d => if current = [d] then [] else current
    | none => current
  let r := removeLoop removed [] [] bases0
  spliceAll r.2 r.1 added

/-- The full base-list reconstruction of `RebaseInheritingObject.apply`
(inheriting.py lines 230–269): `rebase_core` followed by the fallback
to the class default base when the reconstructed list is empty. -/
def rebase_apply_bases (current : List String) (dflt : Option String)
    (removed : List String) (added : List (List String × Anchor)) :
    Option (List String) :=
  (rebase_core current dflt removed added).map (fun bs =>
    if bs = [] then
      match dflt with
      | some d => [d]
      | none => []
    else bs)

example : rebase_apply_bases ["A", "B", "C"] none ["B"] [] =
    some ["A", "C"] := by decide

example : rebase_apply_bases ["A", "C"] none []
    [(["D"], Anchor.before "C")] = some ["A", "D", "C"] := by decide

/-- C6 (code bug): the removal loop of `RebaseInheritingObject.apply`
iterates over the base list while mutating it, so when two bases named
in `removed` are consecutive, the second survives: rebasing
`[A, B, C]` with `removed = {A, B}` leaves `B` in the resulting base
list, contradicting the spec's "remove bases named in `removed`". -/
theorem claim_C6 :
    rebase_apply_bases ["A", "B", "C"] none ["A", "B"] [] =
      some ["B", "C"] ∧
    "B" ∈ ["A", "B"] ∧ "B" ∈ ["B", "C"] := by decide

/-- C10: when the entity's current base list is exactly the
one-element list holding the class default base, it is normalized to
the empty list before removals and insertions (inheriting.py lines
230–235), so an added base replaces the implicit default root; and the
default base is restored exactly when the reconstructed list ends up
empty (lines 264–269). -/
theorem claim_C10 (d : String) (current removed : List String)
    (added : List (List String × Anchor)) :
    rebase_core [d] (some d) removed added =
      rebase_core [] (some d) removed added ∧
    (rebase_core current (some d) removed added = some [] →
      rebase_apply_bases current (some d) removed added = some [d]) ∧
    (∀ bs, bs ≠ [] → rebase_core current (some d) removed added = some bs →
      rebase_apply_bases current (some d) removed added = some bs) := by
  refine ⟨?_, ?_, ?_⟩
  · simp [rebase_core]
  · intro h
    rw [rebase_apply_bases, h]
    simp
  · intro bs hne h
    rw [rebase_apply_bases, h]
    simp [hne]

theorem claim_C10_witness :
    (rebase_core ["X"] (some "Obj") ["X"] [] = some [] ∧
      rebase_apply_bases ["X"] (some "Obj") ["X"] [] = some ["Obj"]) ∧
    (rebase_core ["Obj"] (some "Obj") []
        [(["Y"], Anchor.last)] = some ["Y"] ∧
      rebase_apply_bases ["Obj"] (some "Obj") []
        [(["Y"], Anchor.last)] = some ["Y"]) :=
  ⟨⟨by decide, (claim_C10 "Obj" ["X"] ["X"] []).2.1 (by decide)⟩,
   ⟨by decide, (claim_C10 "Obj" ["Obj"] [] [(["Y"], Anchor.last)]).2.2
      ["Y"] (by decide) (by decide)⟩⟩

/-! ### Round-trip of `delta_bases` through the rebase splice (C2) -/

/-- `SegDecomp old cs new`: the list `new` decomposes into runs of
names absent from `old`, separated by exactly the names of `cs` (each
a name of `old`) in order.  Instantiated with `cs := db_common old
new`, this says the bases retained from `old` occur in `new` in their
old relative order. -/
inductive SegDecomp (old : List String) : List String → List String → Prop
  | last (r : List String) (hr : ∀ b ∈ r, b ∉ old) : SegDecomp old [] r
  | seg (r : List String) (c : String) (cs rest : List String)
      (hr : ∀ b ∈ r, b ∉ old) (hc : c ∈ old)
      (h : SegDecomp old cs rest) : SegDecomp old (c :: cs) (r ++ c :: rest)

/-- The run of `new` before the next common base `c`. -/
def takeRun (c : String) (l : List String) : List String :=
  l.takeWhile (fun b => decide (b ≠ c))

/-- The remainder of `new` after the next common base `c`. -/
def dropRun (c : String) (l : List String) : List String :=
  (l.dropWhile (fun b => decide (b ≠ c))).tail

theorem takeRun_eq {c : String} {rest : List String} :
    ∀ {r : List String}, (∀ b ∈ r, b ≠ c) → takeRun c (r ++ c :: rest) = r := by
  intro r
  induction r with
  | nil => intro _; simp [takeRun]
  | cons b r' ih =>
    intro hne
    have hb : b ≠ c := hne b (List.mem_cons_self _ _)
    have ih' := ih (fun x hx => hne x (List.mem_cons_of_mem _ hx))
    simp only [takeRun, List.cons_append, List.takeWhile_cons] at ih' ⊢
    simp only [decide_eq_true_eq, hb, if_pos, if_true]
    rw [if_pos hb]
    exact congrArg (b :: ·) ih'

theorem dropRun_eq {c : String} {rest : List String} :
    ∀ {r : List String}, (∀ b ∈ r, b ≠ c) → dropRun c (r ++ c :: rest) = rest := by
  intro r
  induction r with
  | nil => intro _; simp [dropRun]
  | cons b r' ih =>
    intro hne
    have hb : b ≠ c := hne b (List.mem_cons_self _ _)
    have ih' := ih (fun x hx => hne x (List.mem_cons_of_mem _ hx))
    simp only [dropRun, List.cons_append, List.dropWhile_cons] at ih' ⊢
    rw [if_pos (by simpa using hb)]
    exact ih'

/-- The groups that the `delta_bases` walk emits on a decomposed `new`
list: one `BEFORE c`-anchored group per non-empty run. -/
def walkGroupsFun : List String → List String → List (List String × Anchor)
  | [], _ => []
  | c :: cs, new =>
    let r := takeRun c new
    let gs : List (List String × Anchor) :=
      if r = [] then [] else [(r, Anchor.before c)]
    match cs with
    | [] => gs
    | _ :: _ => gs ++ walkGroupsFun cs (dropRun c new)

/-- The names the walk accumulates into `added_set`: every run except
the one after the last common base. -/
def walkAsetFun : List String → List String → List String
  | [], _ => []
  | c :: cs, new =>
    match cs with
    | [] => takeRun c new
    | _ :: _ => takeRun c new ++ walkAsetFun cs (dropRun c new)

/-- The run of `new` after the last common base. -/
def lastRest : List String → List String → List String
  | [], new => new
  | c :: cs, new => lastRest cs (dropRun c new)

/-- Everything of `new` up to and including the last common base. -/
def segFront : List String → List String → List String
  | [], _ => []
  | c :: cs, new =>
    takeRun c new ++ c ::
      (match cs with
       | [] => []
       | _ :: _ => segFront cs (dropRun c new))

/-- Absorption of a run into the walk buffer: while the head of `new`
differs from the expected common base, the walk just moves it into the
buffer and the added set. -/
theorem dbWalk_run {c : String} {cs : List String} :
    ∀ {r : List String}, (∀ b ∈ r, c ≠ b) →
    ∀ (new buf aset : List String),
      dbWalk (c :: cs) (r ++ new) buf aset =
        dbWalk (c :: cs) new (buf ++ r) (aset ++ r) := by
  intro r
  induction r with
  | nil => intro _ new buf aset; simp
  | cons b r' ih =>
    intro hne new buf aset
    have hb : c ≠ b := hne b (List.mem_cons_self _ _)
    have ih' := ih (fun x hx => hne x (List.mem_cons_of_mem _ hx))
    simp only [List.cons_append, dbWalk, if_neg hb, List.append_eq]
    rw [ih']
    simp

/-- Separator names of a decomposition are names of `old`. -/
theorem SegDecomp.commons_mem {old cs new : List String}
    (h : SegDecomp old cs new) : ∀ c ∈ cs, c ∈ old := by
  induction h with
  | last r hr => intro c hc; simp at hc
  | seg r c cs rest hr hc h ih =>
    intro c' hc'
    rcases List.mem_cons.mp hc' with rfl | hc'
    · exact hc
    · exact ih c' hc'

/-- The run after the last common base avoids `old`. -/
theorem SegDecomp.lastRest_not_mem {old cs new : List String}
    (h : SegDecomp old cs new) : ∀ b ∈ lastRest cs new, b ∉ old := by
  induction h with
  | last r hr => simpa [lastRest] using hr
  | seg r c cs rest hr hc h ih =>
    have hne : ∀ b ∈ r, b ≠ c := fun b hb e => hr b hb (e ▸ hc)
    simpa [lastRest, dropRun_eq hne] using ih

/-- A decomposition reassembles: `segFront ++ lastRest = new`. -/
theorem SegDecomp.front_append {old cs new : List String}
    (h : SegDecomp old cs new) : segFront cs new ++ lastRest cs new = new := by
  induction h with
  | last r hr => simp [segFront, lastRest]
  | seg r c cs rest hr hc h ih =>
    have hne : ∀ b ∈ r, b ≠ c := fun b hb e => hr b hb (e ▸ hc)
    cases cs with
    | nil => simp [segFront, lastRest, takeRun_eq hne, dropRun_eq hne]
    | cons c' cs' =>
      simp only [segFront, lastRest, takeRun_eq hne, dropRun_eq hne,
        List.append_assoc, List.cons_append] at ih ⊢
      rw [ih]

/-- Characterization of the `delta_bases` walk on a decomposed `new`:
one group per non-empty run, empty leftover buffer, and an `added_set`
collecting every run before the last common base. -/
theorem dbWalk_decomp {old : List String} {cs new : List String}
    (h : SegDecomp old cs new) : cs ≠ [] →
    ∀ aset, dbWalk cs new [] aset =
      (walkGroupsFun cs new, [], aset ++ walkAsetFun cs new) := by
  induction h with
  | last r hr => intro hne; exact absurd rfl hne
  | seg r c cs rest hr hc h ih =>
    intro _ aset
    have hrc : ∀ b ∈ r, c ≠ b := fun b hb e => hr b hb (e ▸ hc)
    have hne' : ∀ b ∈ r, b ≠ c := fun b hb e => hr b hb (e ▸ hc)
    rw [dbWalk_run hrc (c :: rest) [] aset]
    cases cs with
    | nil =>
      simp only [dbWalk, if_pos rfl, walkGroupsFun, walkAsetFun,
        takeRun_eq hne', List.nil_append]
      simp
    | cons c' cs' =>
      have ihw := ih (List.cons_ne_nil _ _) (aset ++ r)
      simp only [dbWalk, if_pos rfl, List.nil_append, ihw]
      simp only [walkGroupsFun, walkAsetFun, takeRun_eq hne',
        dropRun_eq hne', List.append_assoc]
      simp

theorem walkGroupsFun_one (c : String) (new : List String) :
    walkGroupsFun [c] new =
      if takeRun c new = [] then [] else [(takeRun c new, Anchor.before c)] :=
  rfl

theorem walkGroupsFun_cons (c c' : String) (cs' new : List String) :
    walkGroupsFun (c :: c' :: cs') new =
      (if takeRun c new = [] then [] else [(takeRun c new, Anchor.before c)]) ++
        walkGroupsFun (c' :: cs') (dropRun c new) :=
  rfl

theorem walkAsetFun_one (c : String) (new : List String) :
    walkAsetFun [c] new = takeRun c new :=
  rfl

theorem walkAsetFun_cons (c c' : String) (cs' new : List String) :
    walkAsetFun (c :: c' :: cs') new =
      takeRun c new ++ walkAsetFun (c' :: cs') (dropRun c new) :=
  rfl

theorem lastRest_nil (new : List String) : lastRest [] new = new :=
  rfl

theorem lastRest_cons (c : String) (cs new : List String) :
    lastRest (c :: cs) new = lastRest cs (dropRun c new) :=
  rfl

theorem segFront_one (c : String) (new : List String) :
    segFront [c] new = takeRun c new ++ [c] :=
  rfl

theorem segFront_cons (c c' : String) (cs' new : List String) :
    segFront (c :: c' :: cs') new =
      takeRun c new ++ c :: segFront (c' :: cs') (dropRun c new) :=
  rfl

/-- On a decomposed `new`, the `tail_bases` filter of `delta_bases`
(against `added_set` and `common_bases`) keeps exactly the run after
the last common base.  `pre` generalizes the part of `added_set`
accumulated before the current suffix. -/
theorem filter_decomp {old : List String} {cs new : List String}
    (h : SegDecomp old cs new) : new.Nodup → cs ≠ [] →
    ∀ (pre common₀ : List String),
      (∀ x ∈ new, x ∉ pre) →
      (∀ c' ∈ cs, c' ∈ common₀) →
      (∀ b ∈ common₀, b ∈ old) →
      new.filter (fun b => decide (b ∉ pre ++ walkAsetFun cs new) &&
        decide (b ∉ common₀)) = lastRest cs new := by
  induction h with
  | last r hr => intro _ hne; exact absurd rfl hne
  | seg r c cs rest hr hc h ih =>
    intro hnodup _ pre common₀ hpre hcs hcom
    have hne' : ∀ b ∈ r, b ≠ c := fun b hb e => hr b hb (e ▸ hc)
    obtain ⟨hnr, hncr, hdisj⟩ := List.nodup_append.mp hnodup
    have hnrest : rest.Nodup := (List.nodup_cons.mp hncr).2
    have hcrest : c ∉ rest := (List.nodup_cons.mp hncr).1
    cases cs with
    | nil =>
      rw [walkAsetFun_one, takeRun_eq hne', lastRest_cons, dropRun_eq hne',
        lastRest_nil, List.filter_append, List.filter_cons]
      have h1 : r.filter (fun b => decide (b ∉ pre ++ r) &&
          decide (b ∉ common₀)) = [] := by
        rw [List.filter_eq_nil_iff]
        intro b hb
        simp [List.mem_append, hb]
      have h2 : ¬ ((fun b => decide (b ∉ pre ++ r) &&
          decide (b ∉ common₀)) c = true) := by
        simp [hcs c (List.mem_cons_self _ _)]
      rw [h1, if_neg h2, List.nil_append]
      rw [List.filter_eq_self]
      intro b hb
      have hbold : b ∉ old := by
        cases h with
        | last _ hr' => exact hr' b hb
      have hbpre : b ∉ pre :=
        hpre b (List.mem_append_right _ (List.mem_cons_of_mem _ hb))
      have hbr : b ∉ r := fun hbr =>
        hdisj hbr (List.mem_cons_of_mem _ hb)
      have hbc : b ∉ common₀ := fun hbc => hbold (hcom b hbc)
      simp [List.mem_append, hbpre, hbr, hbc]
    | cons c' cs' =>
      rw [walkAsetFun_cons, takeRun_eq hne', lastRest_cons, dropRun_eq hne',
        List.filter_append, List.filter_cons]
      have h1 : r.filter (fun b =>
          decide (b ∉ pre ++ (r ++ walkAsetFun (c' :: cs') rest)) &&
          decide (b ∉ common₀)) = [] := by
        rw [List.filter_eq_nil_iff]
        intro b hb
        simp [List.mem_append, hb]
      have h2 : ¬ ((fun b =>
          decide (b ∉ pre ++ (r ++ walkAsetFun (c' :: cs') rest)) &&
          decide (b ∉ common₀)) c = true) := by
        simp [hcs c (List.mem_cons_self _ _)]
      rw [h1, if_neg h2, List.nil_append]
      have hswap : ∀ b ∈ rest,
          (decide (b ∉ pre ++ (r ++ walkAsetFun (c' :: cs') rest)) &&
            decide (b ∉ common₀)) =
          (decide (b ∉ (pre ++ r) ++ walkAsetFun (c' :: cs') rest) &&
            decide (b ∉ common₀)) := by
        intro b _
        rw [List.append_assoc]
      rw [List.filter_congr hswap]
      refine ih hnrest (List.cons_ne_nil _ _) (pre ++ r) common₀ ?_ ?_ hcom
      · intro x hx
        have hxpre : x ∉ pre :=
          hpre x (List.mem_append_right _ (List.mem_cons_of_mem _ hx))
        have hxr : x ∉ r := fun hxr =>
          hdisj hxr (List.mem_cons_of_mem _ hx)
        simp [List.mem_append, hxpre, hxr]
      · intro c₀ hc₀
        exact hcs c₀ (List.mem_cons_of_mem _ hc₀)

theorem dictIndex_eq_none {n : String} :
    ∀ {l : List String}, n ∉ l → dictIndex l n = none := by
  intro l
  induction l with
  | nil => intro _; rfl
  | cons b rest ih =>
    intro h
    have hb : b ≠ n := fun e => h (e ▸ List.mem_cons_self _ _)
    rw [dictIndex, ih (fun hh => h (List.mem_cons_of_mem _ hh))]
    simp [hb]

/-- When `c` occurs exactly once, `index[c]` is its position. -/
theorem dictIndex_append {c : String} {rest : List String} (h2 : c ∉ rest) :
    ∀ {pre : List String}, c ∉ pre →
    dictIndex (pre ++ c :: rest) c = some pre.length := by
  intro pre
  induction pre with
  | nil =>
    intro _
    rw [List.nil_append, dictIndex, dictIndex_eq_none h2]
    simp
  | cons p pre' ih =>
    intro h1
    have hp : p ≠ c := fun e => h1 (e ▸ List.mem_cons_self _ _)
    rw [List.cons_append, dictIndex, ih (fun hh => h1 (List.mem_cons_of_mem _ hh))]
    simp

theorem spliceAll_split (existing : List String) :
    ∀ (gs1 : List (List String × Anchor)) (bases : List String)
      (gs2 : List (List String × Anchor)),
    spliceAll existing bases (gs1 ++ gs2) =
      match spliceAll existing bases gs1 with
      | none => none
      | some b => spliceAll existing b gs2 := by
  intro gs1
  induction gs1 with
  | nil => intro bases gs2; rfl
  | cons g gs ih =>
    intro bases gs2
    rw [List.cons_append, spliceAll, spliceAll]
    cases spliceGroup existing bases g with
    | none => rfl
    | some b' => exact ih b' gs2

/-- Splicing the walk groups of a decomposed `new` onto the surviving
common bases (prefixed by the already-reconstructed part `pre`)
reproduces `new` up to the last common base.  `existing` may be any
set of names of `old` (runs avoid `old`, so the not-already-present
filter never fires). -/
theorem spliceAll_walkGroups {old : List String} {cs new : List String}
    (h : SegDecomp old cs new) : cs ≠ [] →
    ∀ (pre existing : List String), cs.Nodup →
      (∀ c' ∈ cs, c' ∉ pre) →
      (∀ x ∈ existing, x ∈ old) →
      spliceAll existing (pre ++ cs) (walkGroupsFun cs new) =
        some (pre ++ segFront cs new) := by
  induction h with
  | last r hr => intro hne; exact absurd rfl hne
  | seg r c cs rest hr hc h ih =>
    intro _ pre existing hnodup hpre hex
    have hne' : ∀ b ∈ r, b ≠ c := fun b hb e => hr b hb (e ▸ hc)
    have hcpre : c ∉ pre := hpre c (List.mem_cons_self _ _)
    have hccs : c ∉ cs := (List.nodup_cons.mp hnodup).1
    have hfr : r.filter (fun b => decide (b ∉ existing)) = r := by
      rw [List.filter_eq_self]
      intro b hb
      simp only [decide_eq_true_eq]
      exact fun hbe => hr b hb (hex b hbe)
    have hsplice1 : spliceGroup existing (pre ++ c :: cs)
        (r, Anchor.before c) = some (pre ++ r ++ c :: cs) := by
      rw [spliceGroup]
      simp only [anchorIdx, dictIndex_append hccs hcpre]
      rw [hfr, List.take_left, List.drop_left]
    have hstep : spliceAll existing (pre ++ c :: cs)
        (if takeRun c (r ++ c :: rest) = [] then []
         else [(takeRun c (r ++ c :: rest), Anchor.before c)]) =
        some (pre ++ r ++ c :: cs) := by
      rw [takeRun_eq hne']
      by_cases hr0 : r = []
      · subst hr0
        simp [spliceAll]
      · rw [if_neg hr0]
        simp only [spliceAll, hsplice1]
    cases cs with
    | nil =>
      rw [walkGroupsFun_one, hstep]
      rw [segFront_one, takeRun_eq hne']
      simp [List.append_assoc]
    | cons c' cs' =>
      rw [walkGroupsFun_cons, spliceAll_split, hstep, dropRun_eq hne']
      show spliceAll existing (pre ++ r ++ c :: c' :: cs')
          (walkGroupsFun (c' :: cs') rest) =
        some (pre ++ segFront (c :: c' :: cs') (r ++ c :: rest))
      have hpre' : ∀ c₀ ∈ c' :: cs', c₀ ∉ pre ++ r ++ [c] := by
        intro c₀ hc₀
        have hold : c₀ ∈ old := h.commons_mem c₀ hc₀
        have h1 : c₀ ∉ pre := hpre c₀ (List.mem_cons_of_mem _ hc₀)
        have h2 : c₀ ∉ r := fun hh => hr c₀ hh hold
        have h3 : c₀ ≠ c := fun e => hccs (e ▸ hc₀)
        simp [List.mem_append, h1, h2, h3]
      have ih' := ih (List.cons_ne_nil _ _) (pre ++ r ++ [c]) existing
        (List.nodup_cons.mp hnodup).2 hpre' hex
      have hlist : pre ++ r ++ [c] ++ (c' :: cs') = pre ++ r ++ c :: c' :: cs' := by
        simp [List.append_assoc]
      rw [hlist] at ih'
      rw [ih']
      rw [segFront_cons, takeRun_eq hne', dropRun_eq hne']
      simp [List.append_assoc]

/-- No two consecutive names of the list are both scheduled for
removal (the condition under which the mutate-while-iterating removal
loop of `RebaseInheritingObject.apply` behaves as intended, cf. C6). -/
def noAdjacentDropped (removed : List String) : List String → Bool
  | a :: b :: t =>
    (!(decide (a ∈ removed) && decide (b ∈ removed))) &&
      noAdjacentDropped removed (b :: t)
  | _ => true

theorem noAdjacentDropped_tail {removed : List String} {a : String} :
    ∀ {l : List String}, noAdjacentDropped removed (a :: l) = true →
    noAdjacentDropped removed l = true := by
  intro l h
  match l with
  | [] => rfl
  | b :: t =>
    rw [noAdjacentDropped] at h
    exact Bool.and_elim_right h

/-- Single-step unfolding of the removal loop on a non-empty list. -/
theorem removeLoop_cons (removed acc ex : List String) (b : String)
    (rest : List String) :
    removeLoop removed acc ex (b :: rest) =
      if b ∈ removed then
        match rest with
        | [] => (acc, ex)
        | b' :: rest' => removeLoop removed (acc ++ [b']) ex rest'
      else removeLoop removed (acc ++ [b]) (ex ++ [b]) rest := by
  cases rest with
  | nil => simp only [removeLoop]
  | cons b' rest' => simp only [removeLoop]

/-- Under `noAdjacentDropped`, the removal loop removes exactly the
scheduled names. -/
theorem removeLoop_fst {removed : List String} :
    ∀ (acc ex rest : List String), noAdjacentDropped removed rest = true →
      (removeLoop removed acc ex rest).1 =
        acc ++ rest.filter (fun b => decide (b ∉ removed)) := by
  intro acc ex rest
  induction acc, ex, rest using removeLoop.induct removed with
  | case1 acc ex =>
    intro _
    simp [removeLoop]
  | case2 acc ex b hb =>
    intro _
    rw [removeLoop_cons, if_pos hb]
    simp [hb]
  | case3 acc ex b hb b' rest' ih =>
    intro h
    rw [noAdjacentDropped] at h
    have hh := Bool.and_elim_left h
    have htl := Bool.and_elim_right h
    have hb' : b' ∉ removed := by
      simp [hb] at hh
      exact hh
    have hres := ih (noAdjacentDropped_tail htl)
    rw [removeLoop_cons, if_pos hb]
    show (removeLoop removed (acc ++ [b']) ex rest').1 =
      acc ++ (b :: b' :: rest').filter (fun x => decide (x ∉ removed))
    rw [hres, List.filter_cons, List.filter_cons]
    simp [hb, hb']
  | case4 acc ex b rest hb ih =>
    intro h
    have hres := ih (noAdjacentDropped_tail h)
    rw [removeLoop_cons, if_neg hb, hres, List.filter_cons]
    simp [hb]

/-- Every name in the `existing_bases` accumulator comes from the
initial accumulator or from the processed list. -/
theorem removeLoop_snd {removed : List String} :
    ∀ (acc ex rest : List String) (x : String),
      x ∈ (removeLoop removed acc ex rest).2 → x ∈ ex ∨ x ∈ rest := by
  intro acc ex rest
  induction acc, ex, rest using removeLoop.induct removed with
  | case1 acc ex =>
    intro x hx
    simp only [removeLoop] at hx
    exact Or.inl hx
  | case2 acc ex b hb =>
    intro x hx
    rw [removeLoop_cons, if_pos hb] at hx
    exact Or.inl hx
  | case3 acc ex b hb b' rest' ih =>
    intro x hx
    rw [removeLoop_cons, if_pos hb] at hx
    rcases ih x hx with h | h
    · exact Or.inl h
    · exact Or.inr (List.mem_cons_of_mem _ (List.mem_cons_of_mem _ h))
  | case4 acc ex b rest hb ih =>
    intro x hx
    rw [removeLoop_cons, if_neg hb] at hx
    rcases ih x hx with h | h
    · rcases List.mem_append.mp h with h' | h'
      · exact Or.inl h'
      · simp only [List.mem_singleton] at h'
        subst h'
        exact Or.inr (List.mem_cons_self _ _)
    · exact Or.inr (List.mem_cons_of_mem _ h)

/-- C2 counterexample: on a pure reordering (`old = [A, B]`,
`new = [B, A]`) the edit script moves nothing, because the splice
skips bases already present: the rebase returns `[A, B]`, not
`[B, A]`. -/
theorem claim_C2_counterexample :
    rebase_apply_bases ["A", "B"] none (delta_bases ["A", "B"] ["B", "A"]).1
      (delta_bases ["A", "B"] ["B", "A"]).2 = some ["A", "B"] ∧
    some ["A", "B"] ≠ some ["B", "A"] := by decide

/-- C2 (amended): for duplicate-free `old` and `new` such that the
retained bases occur in `new` in the same relative order as in `old`
(`SegDecomp`), and no two consecutive bases of `old` are both dropped
(cf. the C6 removal bug), applying the edit script produced by
`delta_bases old new` to `old` the way `RebaseInheritingObject.apply`
does yields exactly `new`. -/
theorem claim_C2 (old new : List String) (hold : old.Nodup)
    (hnew : new.Nodup) (horder : SegDecomp old (db_common old new) new)
    (hadj : noAdjacentDropped (db_dropped old new) old = true) :
    rebase_apply_bases old none (delta_bases old new).1
      (delta_bases old new).2 = some new := by
  have hbases : (removeLoop (db_dropped old new) [] [] old).1 =
      db_common old new := by
    have h := removeLoop_fst [] [] old hadj
    simpa [db_common] using h
  have hex : ∀ x ∈ (removeLoop (db_dropped old new) [] [] old).2, x ∈ old := by
    intro x hx
    rcases removeLoop_snd [] [] old x hx with h | h
    · simp at h
    · exact h
  simp only [rebase_apply_bases, rebase_core, delta_bases]
  rw [hbases]
  by_cases hC : db_common old new = []
  · have hr : ∀ b ∈ new, b ∉ old := by
      rw [hC] at horder
      cases horder with
      | last r hr => exact hr
    have hw : db_walked old new = ([], [], []) := by
      rw [db_walked, if_pos hC]
    have ht : db_tail old new = new := by
      rw [db_tail, hw, hC]
      simp
    rw [hC, db_groups, ht, hw]
    by_cases hnew0 : new = []
    · subst hnew0
      simp [spliceAll]
    · rw [if_neg hnew0]
      have hsg : spliceGroup (removeLoop (db_dropped old new) [] [] old).2 []
          (new, Anchor.last) = some new := by
        rw [spliceGroup]
        simp only [anchorIdx, List.length_nil, List.take_nil, List.drop_nil,
          List.append_nil, List.nil_append]
        rw [List.filter_eq_self.mpr]
        intro b hb
        simp only [decide_eq_true_eq]
        exact fun hbe => hr b hb (hex b hbe)
      simp only [List.nil_append, spliceAll, hsg]
      simp [hnew0]
  · have hwalk := dbWalk_decomp horder hC []
    have hw : db_walked old new =
        (walkGroupsFun (db_common old new) new, [],
          [] ++ walkAsetFun (db_common old new) new) := by
      rw [db_walked, if_neg hC, hwalk]
    have ht : db_tail old new = lastRest (db_common old new) new := by
      rw [db_tail, hw]
      rw [List.nil_append, List.nil_append]
      exact filter_decomp horder hnew hC [] (db_common old new)
        (by simp) (fun c h => h) (fun b hb => (mem_db_common.mp hb).1)
    have hsplice := spliceAll_walkGroups horder hC []
      (removeLoop (db_dropped old new) [] [] old).2
      (hold.filter _)
      (by simp)
      hex
    rw [List.nil_append, List.nil_append] at hsplice
    have hfrontlast := horder.front_append
    have hnew0 : new ≠ [] := by
      rcases List.exists_cons_of_ne_nil hC with ⟨c, cs, hcc⟩
      have hcmem : c ∈ db_common old new := by
        rw [hcc]
        exact List.mem_cons_self _ _
      have hcn := (mem_db_common.mp hcmem).2
      intro e
      rw [e] at hcn
      simp at hcn
    rw [db_groups, ht, hw]
    by_cases hLR : lastRest (db_common old new) new = []
    · rw [if_pos hLR]
      have hfront : segFront (db_common old new) new = new := by
        rw [hLR, List.append_nil] at hfrontlast
        exact hfrontlast
      rw [hsplice, hfront]
      simp [hnew0]
    · rw [if_neg hLR]
      rw [spliceAll_split, hsplice]
      have hlg : spliceGroup (removeLoop (db_dropped old new) [] [] old).2
          (segFront (db_common old new) new)
          (lastRest (db_common old new) new, Anchor.last) =
          some new := by
        rw [spliceGroup]
        simp only [anchorIdx, List.take_length, List.drop_length,
          List.append_nil]
        rw [List.filter_eq_self.mpr]
        · rw [hfrontlast]
        · intro b hb
          simp only [decide_eq_true_eq]
          exact fun hbe => horder.lastRest_not_mem b hb (hex b hbe)
      simp only [spliceAll, hlg]
      simp [hnew0]

theorem claim_C2_witness :
    rebase_apply_bases ["A", "B", "C"] none
      (delta_bases ["A", "B", "C"] ["A", "D", "C"]).1
      (delta_bases ["A", "B", "C"] ["A", "D", "C"]).2 =
      some ["A", "D", "C"] :=
  claim_C2 ["A", "B", "C"] ["A", "D", "C"] (by decide) (by decide)
    (SegDecomp.seg [] "A" ["C"] (["D"] ++ "C" :: []) (by decide) (by decide)
      (SegDecomp.seg ["D"] "C" [] [] (by decide) (by decide)
        (SegDecomp.last [] (by decide))))
    (by decide)

/-! ### C3-style linearization (`_merge_mro` / `compute_mro`,
inheriting.py lines 300–336).  Python compares candidate objects by
identity (`id(...)` / `is`); objects are embedded as their identities
(`Nat`). -/

/-- The candidate search of `_merge_mro` (inheriting.py lines
308–313): scan the non-empty candidate lists in order; the first whose
head does not occur in the tail (`m[1:]`) of any non-empty list is
selected; when the scan finds none, the Python `for`–`else` raises. -/
def findCandidate (nonempty : List (List Nat)) :
    List (List Nat) → Option Nat
  | [] => none
  | mro :: rest =>
    match mro with
    | [] => findCandidate nonempty rest
    | c :: _ =>
      if nonempty.any (fun m => decide (c ∈ m.tail)) then
        findCandidate nonempty rest
      else some c

/-- The `while True` loop of `_merge_mro` (inheriting.py lines
303–326) with explicit fuel: each iteration removes the selected
candidate from the head of every list where it appears, so
`totalLen + 1` fuel always suffices. -/
def mergeMroAux (name : String) : Nat → List (List Nat) →
    Except String (List Nat)
  | 0, _ => Except.error "fuel exhausted"
  | fuel + 1, mros =>
    let nonempty := mros.filter (fun m => decide (m ≠ []))
    if nonempty = [] then Except.ok []
    else
      match findCandidate nonempty nonempty with
      | none =>
        Except.error ("Could not find consistent ancestor order for " ++ name)
      | some c =>
        match mergeMroAux name fuel
            (mros.map (fun m =>
              match m with
              | [] => []
              | h :: t => if h = c then t else h :: t)) with
        | Except.error e => Except.error e
        | Except.ok result => Except.ok (c :: result)

/-- Total number of candidate entries. -/
def totalLen (mros : List (List Nat)) : Nat :=
  (mros.map List.length).sum

/-- `_merge_mro(schema, obj, mros)` (inheriting.py lines 300–326); the
error message carries the entity's verbose name. -/
def _merge_mro (name : String) (mros : List (List Nat)) :
    Except String (List Nat) :=
  mergeMroAux name (totalLen mros + 1) mros

/-- Schema fragment for MRO computation: each object identity maps to
its ordered direct bases and a display name. -/
structure MroSchema where
  basesOf : Nat → List Nat
  nameOf : Nat → String

/-- `compute_mro(schema, obj)` (inheriting.py lines 329–336): one
candidate list per base — `[obj]` first, then each base's recursively
computed linearization — then merge.  Recursion depth is bounded by
explicit fuel; errors propagate. -/
def compute_mro (s : MroSchema) : Nat → Nat → Except String (List Nat)
  | 0, _ => Except.error "fuel exhausted"
  | depth + 1, obj =>
    match (s.basesOf obj).mapM (fun b => compute_mro s depth b) with
    | Except.error e => Except.error e
    | Except.ok bmros => _merge_mro (s.nameOf obj) ([obj] :: bmros)

/-- The diamond with contradictory base orders: `X`, `Y` roots,
`B1` with bases `[X, Y]`, `B2` with bases `[Y, X]`, `E` with bases
`[B1, B2]` (ids 1, 2, 3, 4, 5). -/
def diamondSchema : MroSchema where
  basesOf := fun o =>
    if o = 5 then [3, 4] else if o = 3 then [1, 2]
    else if o = 4 then [2, 1] else []
  nameOf := fun o => if o = 5 then "E" else "other"

example : compute_mro diamondSchema 4 3 = Except.ok [3, 1, 2] := rfl

example : compute_mro diamondSchema 4 4 = Except.ok [4, 2, 1] := rfl

/-- When no candidate head qualifies, the scan returns nothing. -/
theorem findCandidate_none (all : List (List Nat)) :
    ∀ (l : List (List Nat)),
      (∀ m ∈ l, m ≠ [] →
        all.any (fun m' => decide (m.headI ∈ m'.tail)) = true) →
      findCandidate all l = none := by
  intro l
  induction l with
  | nil => intro _; rfl
  | cons mro rest ih =>
    intro h
    match mro with
    | [] =>
      rw [findCandidate]
      exact ih (fun m hm => h m (List.mem_cons_of_mem _ hm))
    | c :: t =>
      rw [findCandidate]
      have hc := h (c :: t) (List.mem_cons_self _ _) (List.cons_ne_nil _ _)
      simp only [List.headI] at hc
      rw [if_pos hc]
      exact ih (fun m hm => h m (List.mem_cons_of_mem _ hm))

/-- C1: whenever candidate lists remain non-empty but no list's head
avoids appearing in the tail of another non-empty list, `_merge_mro`
fails with the ordering-inconsistency error naming the entity; in
particular linearizing `E` whose bases `B1`, `B2` order the common
ancestors `X`, `Y` oppositely (`[X, Y]` vs `[Y, X]`) fails with that
error naming `E`. -/
theorem claim_C1 :
    (∀ (name : String) (mros : List (List Nat)),
      (∃ m ∈ mros, m ≠ []) →
      (∀ m ∈ mros, m ≠ [] →
        ∃ m' ∈ mros, m' ≠ [] ∧ m.headI ∈ m'.tail) →
      _merge_mro name mros =
        Except.error ("Could not find consistent ancestor order for " ++ name)) ∧
    compute_mro diamondSchema 4 5 =
      Except.error ("Could not find consistent ancestor order for " ++ "E") := by
  constructor
  · intro name mros hne hblock
    rw [_merge_mro]
    have hfuel : ∃ k, totalLen mros + 1 = k + 1 := ⟨totalLen mros, rfl⟩
    obtain ⟨k, hk⟩ := hfuel
    rw [hk, mergeMroAux]
    have hnonempty : mros.filter (fun m => decide (m ≠ [])) ≠ [] := by
      obtain ⟨m, hm, hmne⟩ := hne
      exact List.ne_nil_of_mem (List.mem_filter.mpr ⟨hm, by simpa using hmne⟩)
    rw [if_neg hnonempty]
    have hfc : findCandidate (mros.filter (fun m => decide (m ≠ [])))
        (mros.filter (fun m => decide (m ≠ []))) = none := by
      apply findCandidate_none
      intro m hm hmne
      obtain ⟨hmm, -⟩ := List.mem_filter.mp hm
      obtain ⟨m', hm', hm'ne, hmem⟩ := hblock m hmm hmne
      rw [List.any_eq_true]
      exact ⟨m', List.mem_filter.mpr ⟨hm', by simpa using hm'ne⟩,
        by simpa using hmem⟩
    rw [hfc]
  · rfl

theorem claim_C1_witness :
    ((∃ m ∈ [[2, 3], [3, 2]], m ≠ ([] : List Nat)) ∧
      (∀ m ∈ [[2, 3], [3, 2]], m ≠ ([] : List Nat) →
        ∃ m' ∈ [[2, 3], [3, 2]], m' ≠ [] ∧ m.headI ∈ m'.tail)) ∧
    _merge_mro "E" [[2, 3], [3, 2]] =
      Except.error ("Could not find consistent ancestor order for " ++ "E") :=
  ⟨⟨by decide, by decide⟩,
   claim_C1.1 "E" [[2, 3], [3, 2]] (by decide) (by decide)⟩

/-! ### The descendant cascade of `RebaseInheritingObject.apply`
(inheriting.py lines 271–295) -/

/-- A synthesized descendant-alter sub-operation recording the new
`ancestors` value (inheriting.py lines 290–295). -/
structure AlterOp where
  classname : Nat
  ancestors : List Nat
deriving DecidableEq, Repr

/-- Replace an entity's base list in the schema
(`scls.set_field_value(schema, 'bases', bases)`, line 271). -/
def updateBases (s : MroSchema) (scls : Nat) (newBases : List Nat) :
    MroSchema where
  basesOf := fun o => if o = scls then newBases else s.basesOf o
  nameOf := s.nameOf

/-- The descendant cascade (inheriting.py lines 284–295):

    descendants = list(scls.descendants(schema))
    if descendants and not list(self.get_subcommands(type=alter_cmd)):
        for descendant in descendants: ...

`hasAlterSub` is `list(self.get_subcommands(type=alter_cmd)) != []`:
when the operation carries *any* alter sub-command, the whole loop is
skipped; otherwise every descendant's `ancestors` is recomputed and a
descendant-alter sub-operation is synthesized. -/
def applyCascade (s : MroSchema) (fuel : Nat) (anc : Nat → List Nat)
    (descendants : List Nat) (hasAlterSub : Bool) :
    Except String ((Nat → List Nat) × List AlterOp) :=
  if descendants ≠ [] ∧ hasAlterSub = false then
    descendants.foldlM
      (fun st d =>
        match compute_mro s fuel d with
        | Except.error e => Except.error e
        | Except.ok mro =>
          Except.ok ((fun o => if o = d then mro.tail else st.1 o),
            st.2 ++ [AlterOp.mk d mro.tail]))
      (anc, ([] : List AlterOp))
  else Except.ok (anc, [])

/-- Lines 271–295 of inheriting.py: store the reconstructed bases on
the entity, recompute and store its `ancestors`
(`compute_mro(schema, scls)[1:]`), then run the descendant cascade. -/
def rebase_finish (s : MroSchema) (fuel : Nat) (anc : Nat → List Nat)
    (scls : Nat) (newBases : List Nat) (descendants : List Nat)
    (hasAlterSub : Bool) :
    Except String ((Nat → List Nat) × List AlterOp) :=
  let s' := updateBases s scls newBases
  match compute_mro s' fuel scls with
  | Except.error e => Except.error e
  | Except.ok mro =>
    applyCascade s' fuel (fun o => if o = scls then mro.tail else anc o)
      descendants hasAlterSub

/-- Rebase scenario for C3: entity `P` (id 0) with descendants `C`
(id 1) and `D` (id 2), both with bases `[P]`; `P`'s bases change from
`[10]` to `[11]`. -/
def c3Schema : MroSchema where
  basesOf := fun o =>
    if o = 0 then [10] else if o = 1 then [0] else if o = 2 then [0] else []
  nameOf := fun _ => "obj"

/-- Cached `ancestors` before the rebase (consistent with
`c3Schema`). -/
def c3Anc : Nat → List Nat := fun o =>
  if o = 0 then [10] else if o = 1 then [0, 10]
  else if o = 2 then [0, 10] else []

/-- C3 (code bug): when the rebase operation carries any explicit
alter sub-operation (here: one for descendant `D` only, so
`hasAlterSub = true`), the code skips the recompute-and-synthesize
loop for *all* descendants: descendant `C` (id 1) keeps the stale
cached `ancestors = [P, 10]` although its fresh linearization is
`[C, P, 11]` (so `ancestors` should be `[P, 11]`), and no sub-operation
is synthesized for it; with no alter sub-operations the same rebase
does refresh both descendants.  The claim requires the refresh per
descendant lacking its own sub-operation, which fails here. -/
theorem claim_C3 :
    (rebase_finish c3Schema 4 c3Anc 0 [11] [1, 2] true =
      Except.ok ((fun o => if o = 0 then [11] else c3Anc o),
        ([] : List AlterOp))) ∧
    ((fun o => if o = 0 then [11] else c3Anc o) 1 = [0, 10]) ∧
    compute_mro (updateBases c3Schema 0 [11]) 4 1 = Except.ok [1, 0, 11] ∧
    ([0, 10] : List Nat) ≠ [0, 11] ∧
    (rebase_finish c3Schema 4 c3Anc 0 [11] [1, 2] false).toOption.map
        (fun r => (r.1 1, r.1 2, r.2)) =
      some ([0, 11], [0, 11],
        [AlterOp.mk 1 [0, 11], AlterOp.mk 2 [0, 11]]) :=
  ⟨rfl, rfl, rfl, by decide, rfl⟩

/-! ### The reference merge engine
(`InheritingObject.merge_classref_dict`, inheriting.py lines 444–584),
per candidate key -/

/-- A referenced member: Python object identity, the back-reference to
its owning entity (the `backref_attr` field), and the
`declared_inherited` flag. -/
structure Member where
  mid : Nat
  backref : Nat
  declaredInherited : Bool
deriving DecidableEq, Repr

/-- Python dict insertion: first-insertion order of keys, the later
value for an existing key wins. -/
def dictInsert (l : List (Nat × Member)) (k : Nat) (v : Member) :
    List (Nat × Member) :=
  match l with
  | [] => [(k, v)]
  | (k', v') :: t =>
    if k' = k then (k', v) :: t else (k', v') :: dictInsert t k v

/-- `ancestry = {pref.get_field_value(schema, backref_attr): pref for
pref in inherited}` (inheriting.py lines 497–498): candidates keyed by
the identity of the defining owner. -/
def ancestryDict (collected : List Member) : List (Nat × Member) :=
  collected.foldl (fun d m => dictInsert d m.backref m) []

/-- Outcome of the per-key merge in `merge_classref_dict`
(inheriting.py lines 502–561): which branch ran and with what
values. -/
inductive MergeResult where
  | skipped
  | localAbsorb (l : Member) (inh : List Member)
  | synthesized (inh : List Member)
  | pureShared (m : Member)
  | copied (m : Member)
  | localOnly (l : Member)
  | mustInheritError (owners : List Nat)
  | nothingToInheritError
deriving DecidableEq, Repr

/-- The per-key body of `merge_classref_dict` (inheriting.py lines
484–561).  `baseRefs` is the list of each base's full-collection entry
for the key (`None` when the base lacks it, lines 489–495);
`declarative` is `dctx is not None and dctx.declarative`; `purePossible`
says `classrefcls.inherit_pure` left the schema unchanged (lines
523–532).

Branches: with no local member, one distinct inherited candidate gives
pure inheritance (shared, or copied when pure sharing is impossible),
two or more give synthesis via `derive_from_root`; with a local member
and inherited candidates the local absorbs them, subject to the
explicit-`inherited` check (lines 538–552, only in declarative
context); a local member declared `inherited` with nothing to inherit
is an error (lines 554–561). -/
def merge_core (localM : Option Member) (owners : List Nat)
    (inherited : List Member)
    (requiresExplicitInherit declarative purePossible : Bool) :
    MergeResult :=
  match localM with
  | none =>
    match inherited with
    | [] => MergeResult.skipped
    | [m] =>
      if purePossible then MergeResult.pureShared m
      else MergeResult.copied m
    | _ => MergeResult.synthesized inherited
  | some l =>
    match inherited with
    | [] =>
      if l.declaredInherited then MergeResult.nothingToInheritError
      else MergeResult.localOnly l
    | _ :: _ =>
      if requiresExplicitInherit && !l.declaredInherited && declarative then
        MergeResult.mustInheritError owners
      else MergeResult.localAbsorb l inherited

def merge_classref_key (localM : Option Member)
    (baseRefs : List (Option Member))
    (requiresExplicitInherit declarative purePossible : Bool) :
    MergeResult :=
  let ancestry := ancestryDict (baseRefs.filterMap id)
  merge_core localM (ancestry.map Prod.fst) (ancestry.map Prod.snd)
    requiresExplicitInherit declarative purePossible

/-- C4: two bases exposing the *same* member object `m` (purely
inherited from a common ancestor, so both entries carry the same
defining-owner back-reference) are deduplicated by owner identity:
with no local entry the merge takes the pure-inheritance branch and
returns the single shared reference `m` itself — not a synthesized
member; and synthesis happens only with no local entry and at least
two distinct defining owners after deduplication. -/
theorem claim_C4 :
    (∀ (m : Member) (reqInh decl : Bool),
      merge_classref_key none [some m, some m] reqInh decl true =
        MergeResult.pureShared m) ∧
    (∀ (localM : Option Member) (baseRefs : List (Option Member))
      (reqInh decl pureOk : Bool) (inh : List Member),
      merge_classref_key localM baseRefs reqInh decl pureOk =
        MergeResult.synthesized inh →
      localM = none ∧ 2 ≤ inh.length) := by
  constructor
  · intro m reqInh decl
    simp [merge_classref_key, merge_core, ancestryDict, dictInsert]
  · intro localM baseRefs reqInh decl pureOk inh h
    rw [merge_classref_key] at h
    have core : ∀ (lm : Option Member) (ow : List Nat) (il : List Member),
        merge_core lm ow il reqInh decl pureOk =
          MergeResult.synthesized inh → lm = none ∧ 2 ≤ inh.length := by
      intro lm ow il hc
      cases lm with
      | some l =>
        exfalso
        cases il with
        | nil =>
          rw [merge_core] at hc
          split at hc <;> simp at hc
        | cons a t =>
          rw [merge_core] at hc
          split at hc <;> simp at hc
      | none =>
        refine ⟨rfl, ?_⟩
        cases il with
        | nil => simp [merge_core] at hc
        | cons a t =>
          cases t with
          | nil =>
            rw [merge_core] at hc
            split at hc <;> simp at hc
          | cons a' t' =>
            have he : MergeResult.synthesized (a :: a' :: t') =
                MergeResult.synthesized inh := hc
            injection he with he'
            rw [← he']
            simp only [List.length_cons]
            omega
    exact core localM _ _ h

theorem claim_C4_witness :
    merge_classref_key none
      [some (Member.mk 7 3 false), some (Member.mk 7 3 false)]
      true true true =
      MergeResult.pureShared (Member.mk 7 3 false) :=
  claim_C4.1 (Member.mk 7 3 false) true true

/-- C8 counterexample: outside a declarative context (`dctx is None`
or `dctx.declarative` false, inheriting.py line 541) the
explicit-`inherited` check is skipped even though every condition the
claim lists holds — local member present and not declared inherited,
an ancestor defines the key, sharing not pure, explicit declaration
required: the merge succeeds with the local member absorbing the
inherited one instead of failing. -/
theorem claim_C8_counterexample :
    merge_classref_key (some (Member.mk 1 0 false))
      [some (Member.mk 2 9 false)] true false true =
      MergeResult.localAbsorb (Member.mk 1 0 false) [Member.mk 2 9 false] ∧
    MergeResult.localAbsorb (Member.mk 1 0 false) [Member.mk 2 9 false] ≠
      MergeResult.mustInheritError [9] := by
  constructor
  · rfl
  · decide

/-- C8 (amended): *in a declarative context*, when a local member
exists, some base defines the same key, explicit inherit declaration
is required, and the local member is not declared `inherited`, the
merge fails with the definition error naming the conflicting
ancestors (the distinct defining owners); with the `inherited`
declaration present the merge succeeds and the local member absorbs
the inherited members as its bases. -/
theorem claim_C8 (l : Member) (baseRefs : List (Option Member))
    (pureOk : Bool)
    (hinh : (ancestryDict (baseRefs.filterMap id)).map Prod.snd ≠ []) :
    (l.declaredInherited = false →
      merge_classref_key (some l) baseRefs true true pureOk =
        MergeResult.mustInheritError
          ((ancestryDict (baseRefs.filterMap id)).map Prod.fst)) ∧
    (l.declaredInherited = true →
      merge_classref_key (some l) baseRefs true true pureOk =
        MergeResult.localAbsorb l
          ((ancestryDict (baseRefs.filterMap id)).map Prod.snd)) := by
  obtain ⟨a, t, he⟩ := List.exists_cons_of_ne_nil hinh
  constructor
  · intro hd
    show merge_core (some l)
      ((ancestryDict (baseRefs.filterMap id)).map Prod.fst)
      ((ancestryDict (baseRefs.filterMap id)).map Prod.snd)
      true true pureOk = _
    rw [he, merge_core]
    simp [hd]
  · intro hd
    show merge_core (some l)
      ((ancestryDict (baseRefs.filterMap id)).map Prod.fst)
      ((ancestryDict (baseRefs.filterMap id)).map Prod.snd)
      true true pureOk = _
    rw [he, merge_core]
    simp [hd]

theorem claim_C8_witness :
    ((ancestryDict ([some (Member.mk 2 9 false)].filterMap id)).map
        Prod.snd ≠ [] ∧
      merge_classref_key (some (Member.mk 1 0 false))
        [some (Member.mk 2 9 false)] true true true =
        MergeResult.mustInheritError [9]) ∧
    merge_classref_key (some (Member.mk 1 0 true))
      [some (Member.mk 2 9 false)] true true true =
      MergeResult.localAbsorb (Member.mk 1 0 true) [Member.mk 2 9 false] :=
  ⟨⟨by decide,
    (claim_C8 (Member.mk 1 0 false) [some (Member.mk 2 9 false)] true
      (by decide)).1 rfl⟩,
   (claim_C8 (Member.mk 1 0 true) [some (Member.mk 2 9 false)] true
      (by decide)).2 rfl⟩

/-! ### Referenced-member deletion with ancestor fallback
(`InheritingObject.del_classref`, inheriting.py lines 719–747, and
`ReferencedObjectCommand._delete_innards`, referencing.py lines
129–151) -/

/-- An entity's state for the deletion scenario: direct bases and the
full / local reference collections (association lists keyed by member
name). -/
structure RefEntity where
  bases : List Nat
  full : List (String × Member)
  localColl : List (String × Member)
deriving Repr

def collGet (coll : List (String × Member)) (k : String) : Option Member :=
  match coll with
  | [] => none
  | (k', m) :: t => if k' = k then some m else collGet t k

def collHas (coll : List (String × Member)) (k : String) : Bool :=
  (collGet coll k).isSome

def collDelete (coll : List (String × Member)) (k : String) :
    List (String × Member) :=
  coll.filter (fun p => decide (p.1 ≠ k))

def collAdd (coll : List (String × Member)) (k : String) (m : Member) :
    List (String × Member) :=
  coll ++ [(k, m)]

def updateEntity (s : Nat → RefEntity) (i : Nat)
    (f : RefEntity → RefEntity) : Nat → RefEntity :=
  fun o => if o = i then f (s o) else s o

/-- Lines 724–728 of inheriting.py: scan the direct bases' full
collections for an entry under the key; first hit wins. -/
def findInherited (s : Nat → RefEntity) (bases : List Nat)
    (key : String) : Option Member :=
  match bases with
  | [] => none
  | b :: rest =>
    match collGet (s b).full key with
    | some m => some m
    | none => findInherited s rest key

/-- `InheritingObject.del_classref` (inheriting.py lines 719–747).
When some direct base still exposes the key, the code *deletes* the
key from every non-overriding descendant's full collection (lines
730–739), removes the member from the owner (`super().del_classref`,
line 741 — the superclass is outside this repository's sources;
modelled from the spec as removal of the key from the owner's full and
local collections), and finally re-adds the ancestor's definition to
the owner's full collection only (lines 742–745). -/
def del_classref (s : Nat → RefEntity) (self : Nat)
    (descendants : List Nat) (key : String) : Nat → RefEntity :=
  let inherited := findInherited s (s self).bases key
  let s1 :=
    match inherited with
    | none => s
    | some _ =>
      descendants.foldl
        (fun st d =>
          if collHas (st d).localColl key then st
          else updateEntity st d
            (fun e => { e with full := collDelete e.full key })) s
  let s2 := updateEntity s1 self
    (fun e => { e with full := collDelete e.full key,
                       localColl := collDelete e.localColl key })
  match inherited with
  | none => s2
  | some m => updateEntity s2 self
      (fun e => { e with full := collAdd e.full key m })

/-- `ReferencedObjectCommand._delete_innards` (referencing.py lines
129–151): `del_classref` on the referrer, then delete the key from
every non-overriding descendant's full collection (lines 141–149). -/
def _delete_innards (s : Nat → RefEntity) (referrer : Nat)
    (descendants : List Nat) (key : String) : Nat → RefEntity :=
  let s1 := del_classref s referrer descendants key
  descendants.foldl
    (fun st d =>
      if collHas (st d).localColl key then st
      else updateEntity st d
        (fun e => { e with full := collDelete e.full key })) s1

/-- Deletion scenario for C5: grandparent `G` (id 1) defines `m`
(member id 100 owned by `G`); `P` (id 0) with base `G` locally
overrides `m` (member id 200 owned by `P`); descendant `C` (id 2) with
base `P` does not override and shares `P`'s member by reference. -/
def c5Schema : Nat → RefEntity := fun o =>
  if o = 1 then
    RefEntity.mk [] [("m", Member.mk 100 1 false)]
      [("m", Member.mk 100 1 false)]
  else if o = 0 then
    RefEntity.mk [1] [("m", Member.mk 200 0 false)]
      [("m", Member.mk 200 0 false)]
  else if o = 2 then
    RefEntity.mk [0] [("m", Member.mk 200 0 false)] []
  else RefEntity.mk [] [] []

/-- C5 (code bug): deleting `m` from `P` while grandparent `G` still
defines it leaves the owner `P` backfilled with `G`'s definition (the
second conjunct — this half of the claim holds), but the non-overriding
descendant `C` *loses* the key outright: both `del_classref` (lines
730–739) and `_delete_innards` (lines 141–149) delete it from `C`'s
full collection and nothing re-adds the ancestor's definition there,
contradicting the claim (and spec §4.5) that every non-overriding
descendant falls back to the ancestor's definition. -/
theorem claim_C5 :
    collGet ((c5Schema) 2).full "m" = some (Member.mk 200 0 false) ∧
    collGet ((_delete_innards c5Schema 0 [2] "m") 2).full "m" = none ∧
    collGet ((_delete_innards c5Schema 0 [2] "m") 0).full "m" =
      some (Member.mk 100 1 false) ∧
    (none : Option Member) ≠ some (Member.mk 100 1 false) :=
  ⟨rfl, rfl, rfl, by decide⟩

end EdgeDB
